import Mathlib

/-!
Verification of the lazy_id crate (src/lib.rs): a lazily initialized
64-bit id built from a process-wide sequence allocator and a bijective
mixing function.  Machine integers are modelled as natural numbers with
explicit reduction modulo 2^64 where the Rust code uses wrapping
arithmetic.  The stateful parts (the atomic slot word and the global
counter ID_ALLOC) are modelled by explicit state passing: an operation
takes the slot word and the counter and returns the result together
with the new slot word and counter; the allocator abort path is
modelled by Option, with none standing for the process-wide abort.
-/

namespace LazyId

/-- Modulus of u64 arithmetic. -/
def U64_MOD : Nat := 2 ^ 64

/-- Constant ID2SEQ from src/lib.rs line 284 (0x1337_fe4415). -/
def ID2SEQ : Nat := 0x1337fe4415

/-- Constant SEQ2ID from src/lib.rs line 286, the multiplicative inverse of
ID2SEQ modulo 2^64. -/
def SEQ2ID : Nat := 6848199123282258749

/-- u64 wrapping_mul. -/
def wrapping_mul (a b : Nat) : Nat := a * b % U64_MOD

/-- Forward mixing function: seq.wrapping_mul(SEQ2ID), as in Id::next_id and
the test helper syncmix. -/
def mix (x : Nat) : Nat := wrapping_mul x SEQ2ID

/-- Inverse mixing function: v.wrapping_mul(ID2SEQ), as in the Debug impl and
the test helper syncunmix. -/
def unmix (x : Nat) : Nat := wrapping_mul x ID2SEQ

theorem seq2id_mul_id2seq : SEQ2ID * ID2SEQ % U64_MOD = 1 := by decide

theorem id2seq_mul_seq2id : ID2SEQ * SEQ2ID % U64_MOD = 1 := by decide

theorem mul_mod_cancel (a b x : Nat) (hab : a * b % U64_MOD = 1)
    (hx : x < U64_MOD) : x * a % U64_MOD * b % U64_MOD = x := by
  rw [Nat.mod_mul_mod, Nat.mul_assoc, Nat.mul_mod, hab,
    Nat.mod_eq_of_lt hx, Nat.mul_one, Nat.mod_eq_of_lt hx]

theorem unmix_mix (x : Nat) (hx : x < U64_MOD) : unmix (mix x) = x :=
  mul_mod_cancel SEQ2ID ID2SEQ x seq2id_mul_id2seq hx

theorem mix_unmix (x : Nat) (hx : x < U64_MOD) : mix (unmix x) = x :=
  mul_mod_cancel ID2SEQ SEQ2ID x id2seq_mul_seq2id hx

theorem mix_ne_zero (x : Nat) (hx : x < U64_MOD) (hx0 : x ≠ 0) :
    mix x ≠ 0 := by
  intro h
  apply hx0
  have := unmix_mix x hx
  rw [h] at this
  simpa [unmix, wrapping_mul] using this.symm

/-- C1: for every 64-bit value x, unmix (mix x) = x and mix (unmix x) = x;
the two constants are multiplicative inverses modulo 2^64, so mix is a
bijection on the 64-bit range with inverse unmix. -/
theorem mix_roundtrip :
    ID2SEQ * SEQ2ID % U64_MOD = 1 ∧
    (∀ x : Nat, x < U64_MOD → unmix (mix x) = x ∧ mix (unmix x) = x) ∧
    Set.BijOn mix (Set.Iio U64_MOD) (Set.Iio U64_MOD) :=
  ⟨id2seq_mul_seq2id,
   fun x hx => ⟨unmix_mix x hx, mix_unmix x hx⟩,
   ⟨fun x _ => Nat.mod_lt _ (by decide),
    fun a ha b hb hab => by
      have := unmix_mix a ha
      rw [hab, unmix_mix b hb] at this
      exact this.symm,
    fun y hy => ⟨unmix y, Nat.mod_lt _ (by decide), mix_unmix y hy⟩⟩⟩

/-- Witness for C1 at the edge inputs 0, u64 max, and the constants
themselves. -/
theorem mix_roundtrip_witness :
    (0 : Nat) < U64_MOD ∧ unmix (mix 0) = 0 ∧
    U64_MOD - 1 < U64_MOD ∧ unmix (mix (U64_MOD - 1)) = U64_MOD - 1 ∧
    mix (unmix SEQ2ID) = SEQ2ID ∧ unmix (mix ID2SEQ) = ID2SEQ :=
  ⟨by decide, (mix_roundtrip.2.1 0 (by decide)).1,
   by decide, (mix_roundtrip.2.1 (U64_MOD - 1) (by decide)).1,
   (mix_roundtrip.2.1 SEQ2ID (by decide)).2,
   (mix_roundtrip.2.1 ID2SEQ (by decide)).1⟩

/-- C2: mix maps 0 to 0, and 0 is the only 64-bit input that mix maps to 0;
hence mixing a nonzero sequence number always yields a nonzero id value. -/
theorem mix_zero_sentinel :
    mix 0 = 0 ∧ ∀ x : Nat, x < U64_MOD → x ≠ 0 → mix x ≠ 0 :=
  ⟨by decide, fun x hx hx0 => mix_ne_zero x hx hx0⟩

/-- Witness for C2 at the input 1. -/
theorem mix_zero_sentinel_witness :
    (1 : Nat) < U64_MOD ∧ (1 : Nat) ≠ 0 ∧ mix 1 ≠ 0 :=
  ⟨by decide, by decide, mix_zero_sentinel.2 1 (by decide) (by decide)⟩

/-- Value of i64::MAX as u64, the abort threshold in next_seq. -/
def I64_MAX : Nat := 2 ^ 63 - 1

/-- Initial value of the global counter ID_ALLOC (src/lib.rs line 477). -/
def ID_ALLOC_INIT : Nat := 1

/-- One call of next_seq with the counter holding c: fetch_add(1) returns the
pre-increment value and stores the wrapped increment; if the pre-increment
value exceeds i64::MAX the process aborts (modelled as none), otherwise the
call returns the sequence number and the new counter. -/
def next_seq (c : Nat) : Option (Nat × Nat) :=
  let seq := c
  let c2 := (c + 1) % U64_MOD
  if seq > I64_MAX then none else some (seq, c2)

/-- One call of Id::next_id: draw a sequence number and mix it. -/
def next_id (c : Nat) : Option (Nat × Nat) :=
  match next_seq c with
  | none => none
  | some (seq, c2) => some (mix seq, c2)

/-- Result of the n-th allocation (1-indexed) in the sequential model, when
the counter currently holds c; none when some call up to the n-th aborts. -/
def alloc_from (c : Nat) : Nat → Option Nat
  | 0 => none
  | 1 => (next_seq c).map Prod.fst
  | n + 2 =>
    match next_seq c with
    | none => none
    | some (_, c2) => alloc_from c2 (n + 1)

/-- Result of the n-th allocation (1-indexed) starting from the initial
counter value 1. -/
def nth_alloc (n : Nat) : Option Nat := alloc_from ID_ALLOC_INIT n

theorem next_seq_ok (c : Nat) (h : c ≤ I64_MAX) :
    next_seq c = some (c, (c + 1) % U64_MOD) := by
  simp [next_seq, Nat.not_lt.mpr h]

theorem next_seq_ok_small (c : Nat) (h : c ≤ I64_MAX) :
    next_seq c = some (c, c + 1) := by
  rw [next_seq_ok c h, Nat.mod_eq_of_lt]
  have : I64_MAX + 1 < U64_MOD := by decide
  omega

theorem alloc_from_eq (n : Nat) : ∀ c : Nat, 1 ≤ n →
    c + n - 1 ≤ I64_MAX → alloc_from c n = some (c + n - 1) := by
  induction n with
  | zero => omega
  | succ m ih =>
    intro c _ hle
    match m with
    | 0 =>
      have hc : c ≤ I64_MAX := by omega
      simp [alloc_from, next_seq_ok_small c hc]
    | k + 1 =>
      have hc : c ≤ I64_MAX := by omega
      rw [show k + 1 + 1 = k + 2 from rfl]
      rw [alloc_from, next_seq_ok_small c hc]
      have hrec := ih (c + 1) (by omega) (by omega)
      show alloc_from (c + 1) (k + 1) = some (c + (k + 2) - 1)
      rw [hrec]
      congr 1
      omega

theorem nth_alloc_eq (n : Nat) (h1 : 1 ≤ n) (h2 : n ≤ I64_MAX) :
    nth_alloc n = some n := by
  have := alloc_from_eq n ID_ALLOC_INIT h1 (by simp [ID_ALLOC_INIT]; omega)
  simpa [nth_alloc, ID_ALLOC_INIT] using this

/-- C3: the counter starts at 1, each next_seq call increments it by exactly
1 and returns the pre-increment value; in the sequential model the n-th
allocation returns n, so returned values are strictly increasing, never
zero, and pairwise distinct absent overflow. -/
theorem nth_alloc_spec :
    ID_ALLOC_INIT = 1 ∧
    (∀ c, c ≤ I64_MAX → next_seq c = some (c, (c + 1) % U64_MOD)) ∧
    (∀ n, 1 ≤ n → n ≤ I64_MAX → nth_alloc n = some n) ∧
    (∀ m n a b, 1 ≤ m → m < n → n ≤ I64_MAX →
      nth_alloc m = some a → nth_alloc n = some b →
      a < b ∧ a ≠ 0 ∧ b ≠ 0 ∧ a ≠ b) := by
  refine ⟨rfl, next_seq_ok, nth_alloc_eq, ?_⟩
  intro m n a b hm hmn hn ha hb
  rw [nth_alloc_eq m hm (by omega)] at ha
  rw [nth_alloc_eq n (by omega) hn] at hb
  obtain rfl : m = a := (Option.some_inj.mp ha)
  obtain rfl : n = b := (Option.some_inj.mp hb)
  exact ⟨hmn, by omega, by omega, by omega⟩

/-- Witness for C3: the first and third allocations return 1 and 3. -/
theorem nth_alloc_spec_witness :
    (1 : Nat) ≤ 1 ∧ (1 : Nat) < 3 ∧ (3 : Nat) ≤ I64_MAX ∧
    nth_alloc 1 = some 1 ∧ nth_alloc 3 = some 3 ∧
    (1 : Nat) < 3 ∧ (1 : Nat) ≠ 0 ∧ (3 : Nat) ≠ 0 ∧ (1 : Nat) ≠ 3 := by
  have h1 := nth_alloc_spec.2.2.1 1 (by decide) (by decide)
  have h3 := nth_alloc_spec.2.2.1 3 (by decide) (by decide)
  have h13 := nth_alloc_spec.2.2.2 1 3 1 3 (by decide) (by decide)
    (by decide) h1 h3
  exact ⟨by decide, by decide, by decide, h1, h3, h13.1, h13.2.1,
    h13.2.2.1, h13.2.2.2⟩

/-- The const LAZY_INITIALIZER: a slot whose stored word is the sentinel 0. -/
def LAZY_INITIALIZER : Nat := 0

/-- Atomic compare_exchange on a slot word: if the word equals expected it is
replaced by new and the call reports success with the observed value,
otherwise the word is unchanged and the call reports failure with the
observed value.  Result: ((success flag, observed value), new word). -/
def compare_exchange (w expected new : Nat) : (Bool × Nat) × Nat :=
  if w = expected then ((true, w), new) else ((false, w), w)

/-- Id::lazy_init on a slot holding w with the counter holding c: draw a
fresh mixed id and compare_exchange the word from 0 to it; on a lost race
adopt the observed value.  Result: (returned value, new word, new counter). -/
def lazy_init (w c : Nat) : Option (Nat × Nat × Nat) :=
  match next_id c with
  | none => none
  | some (id, c2) =>
    match compare_exchange w 0 id with
    | ((true, _), w2) => some (id, w2, c2)
    | ((false, e), w2) => some (e, w2, c2)

/-- Id::get_nonzero: relaxed load of the word; nonzero values are returned
directly, otherwise fall through to lazy_init. -/
def get_nonzero (w c : Nat) : Option (Nat × Nat × Nat) :=
  if w ≠ 0 then some (w, w, c) else lazy_init w c

/-- Id::ensure_init: the exclusive-access variant that skips the
compare_exchange and plainly stores a fresh id when the word is 0. -/
def ensure_init (w c : Nat) : Option (Nat × Nat × Nat) :=
  if w ≠ 0 then some (w, w, c)
  else
    match next_id c with
    | none => none
    | some (id, c2) => some (id, id, c2)

/-- Id::from_raw_integer: the slot word is the caller-supplied nonzero value
itself, stored directly. -/
def from_raw_integer (v : Nat) : Nat := v

/-- Id::new: eager construction, a slot whose word is a freshly drawn mixed
id.  Result: (slot word, new counter). -/
def id_new (c : Nat) : Option (Nat × Nat) := next_id c

/-- C4: next_seq aborts exactly when the pre-increment counter value exceeds
i64::MAX (a greater-than threshold test, so every value at or below the
threshold returns normally), and a losing compare_exchange in lazy_init is
not an error: whenever the allocator itself does not abort, lazy_init
returns a value. -/
theorem next_seq_abort_spec :
    (∀ c, next_seq c = none ↔ I64_MAX < c) ∧
    (∀ c, c ≤ I64_MAX → ∃ p, next_seq c = some p) ∧
    (∀ w c id c2, next_id c = some (id, c2) →
      ∃ r w2, lazy_init w c = some (r, w2, c2)) := by
  refine ⟨?_, ?_, ?_⟩
  · intro c
    constructor
    · intro h
      by_contra hlt
      rw [next_seq_ok c (by omega)] at h
      exact Option.noConfusion h
    · intro h
      simp [next_seq, h]
  · intro c h
    exact ⟨(c, (c + 1) % U64_MOD), next_seq_ok c h⟩
  · intro w c id c2 h
    unfold lazy_init
    rw [h]
    by_cases hw : w = 0
    · subst hw
      exact ⟨id, id, by simp [compare_exchange]⟩
    · exact ⟨w, w, by simp [compare_exchange, hw]⟩

/-- Witness for C4: the counter value 1 does not abort while the value
i64::MAX + 1 does, and a lost compare_exchange on an occupied slot still
returns a value. -/
theorem next_seq_abort_spec_witness :
    next_seq (I64_MAX + 1) = none ∧
    (∃ p, next_seq 1 = some p) ∧
    (∃ r w2, lazy_init 5 1 = some (r, w2, 2)) :=
  ⟨(next_seq_abort_spec.1 (I64_MAX + 1)).mpr (by omega),
   next_seq_abort_spec.2.1 1 (by decide),
   next_seq_abort_spec.2.2 5 1 (mix 1) 2 (by decide)⟩

/-- PartialEq for Id: self.get() == o.get(); both operands are forced.
Result: (answer, new word of a, new word of b, new counter). -/
def id_eq (wa wb c : Nat) : Option (Bool × Nat × Nat × Nat) :=
  match get_nonzero wa c with
  | none => none
  | some (va, wa2, c1) =>
    match get_nonzero wb c1 with
    | none => none
    | some (vb, wb2, c2) => some (va == vb, wa2, wb2, c2)

/-- Ord for Id: self.get().cmp(o), where o derefs to its resolved value. -/
def id_cmp (wa wb c : Nat) : Option (Ordering × Nat × Nat × Nat) :=
  match get_nonzero wa c with
  | none => none
  | some (va, wa2, c1) =>
    match get_nonzero wb c1 with
    | none => none
    | some (vb, wb2, c2) => some (compare va vb, wa2, wb2, c2)

/-- Hash for Id: self.get().hash(state), the hasher modelled as a function
applied to the resolved value. -/
def id_hash (h : Nat → Nat) (w c : Nat) : Option (Nat × Nat × Nat) :=
  match get_nonzero w c with
  | none => none
  | some (v, w2, c2) => some (h v, w2, c2)

/-- Debug for Id: shows the resolved value v and seq = v.wrapping_mul(ID2SEQ). -/
def id_debug (w c : Nat) : Option ((Nat × Nat) × Nat × Nat) :=
  match get_nonzero w c with
  | none => none
  | some (v, w2, c2) => some ((v, unmix v), w2, c2)

/-- Clone for Id: a new slot whose word is AtomicU64::new(self.get()).
Result: (word of the fresh clone slot, new word of the source, new counter). -/
def id_clone (w c : Nat) : Option (Nat × Nat × Nat) :=
  match get_nonzero w c with
  | none => none
  | some (v, w2, c2) => some (v, w2, c2)

/-- Value of the n-th Id resolved through next_id (1-indexed) in the
sequential model, when the counter currently holds c. -/
def id_from (c : Nat) : Nat → Option Nat
  | 0 => none
  | 1 => (next_id c).map Prod.fst
  | n + 2 =>
    match next_id c with
    | none => none
    | some (_, c2) => id_from c2 (n + 1)

/-- Value of the n-th Id resolved through next_id, starting from the initial
counter value 1. -/
def nth_id (n : Nat) : Option Nat := id_from ID_ALLOC_INIT n

theorem next_id_ok (c : Nat) (h : c ≤ I64_MAX) :
    next_id c = some (mix c, c + 1) := by
  simp [next_id, next_seq_ok_small c h]

theorem next_id_inv {c id c2 : Nat} (h : next_id c = some (id, c2)) :
    c ≤ I64_MAX ∧ id = mix c ∧ c2 = c + 1 := by
  by_cases hc : I64_MAX < c
  · exfalso
    simp [next_id, next_seq, hc] at h
  · rw [next_id_ok c (by omega)] at h
    have hp := Option.some_inj.mp h
    exact ⟨by omega, (congrArg Prod.fst hp).symm, (congrArg Prod.snd hp).symm⟩

theorem id_from_eq (n : Nat) : ∀ c : Nat, 1 ≤ n →
    c + n - 1 ≤ I64_MAX → id_from c n = some (mix (c + n - 1)) := by
  induction n with
  | zero => omega
  | succ m ih =>
    intro c _ hle
    match m with
    | 0 =>
      have hc : c ≤ I64_MAX := by omega
      simp [id_from, next_id_ok c hc]
    | k + 1 =>
      have hc : c ≤ I64_MAX := by omega
      rw [show k + 1 + 1 = k + 2 from rfl]
      rw [id_from, next_id_ok c hc]
      have hrec := ih (c + 1) (by omega) (by omega)
      show id_from (c + 1) (k + 1) = some (mix (c + (k + 2) - 1))
      rw [hrec]
      congr 2
      omega

theorem nth_id_eq (n : Nat) (h1 : 1 ≤ n) (h2 : n ≤ I64_MAX) :
    nth_id n = some (mix n) := by
  have := id_from_eq n ID_ALLOC_INIT h1 (by simp [ID_ALLOC_INIT]; omega)
  simpa [nth_id, ID_ALLOC_INIT] using this

theorem mix_inj {a b : Nat} (ha : a < U64_MOD) (hb : b < U64_MOD)
    (h : mix a = mix b) : a = b := by
  have := unmix_mix a ha
  rw [h, unmix_mix b hb] at this
  exact this.symm

theorem i64max_lt_mod : I64_MAX < U64_MOD := by decide

/-- C5: every Id resolved through the normal allocation path (eager Id::new
or lazy Id::lazy later forced) carries mix applied to a distinct nonzero
sequence number, and since mix is injective the resolved values of any two
distinct such Ids differ, absent counter overflow. -/
theorem ids_pairwise_distinct :
    (∀ c v c2, next_id c = some (v, c2) →
      id_new c = some (v, c2) ∧
      get_nonzero LAZY_INITIALIZER c = some (v, v, c2)) ∧
    (∀ n, 1 ≤ n → n ≤ I64_MAX → nth_id n = some (mix n) ∧ mix n ≠ 0) ∧
    (∀ m n a b, 1 ≤ m → 1 ≤ n → m ≠ n → m ≤ I64_MAX → n ≤ I64_MAX →
      nth_id m = some a → nth_id n = some b → a ≠ b) := by
  refine ⟨?_, ?_, ?_⟩
  · intro c v c2 h
    refine ⟨h, ?_⟩
    simp only [get_nonzero, LAZY_INITIALIZER, lazy_init, h, compare_exchange]
    simp
  · intro n h1 h2
    exact ⟨nth_id_eq n h1 h2,
      mix_ne_zero n (by have := i64max_lt_mod; omega) (by omega)⟩
  · intro m n a b hm hn hmn hmx hnx ha hb
    rw [nth_id_eq m hm hmx] at ha
    rw [nth_id_eq n hn hnx] at hb
    obtain rfl := Option.some_inj.mp ha
    obtain rfl := Option.some_inj.mp hb
    intro hab
    have := i64max_lt_mod
    exact hmn (mix_inj (by omega) (by omega) hab)

/-- Witness for C5: the first and second resolved ids are the mixes of 1 and
2 and differ. -/
theorem ids_pairwise_distinct_witness :
    nth_id 1 = some (mix 1) ∧ nth_id 2 = some (mix 2) ∧ mix 1 ≠ mix 2 := by
  have h1 := (ids_pairwise_distinct.2.1 1 (by decide) (by decide)).1
  have h2 := (ids_pairwise_distinct.2.1 2 (by decide) (by decide)).1
  exact ⟨h1, h2, ids_pairwise_distinct.2.2 1 2 (mix 1) (mix 2) (by decide)
    (by decide) (by decide) (by decide) (by decide) h1 h2⟩

theorem get_nonzero_of_ne (w c : Nat) (hw : w ≠ 0) :
    get_nonzero w c = some (w, w, c) := by
  simp [get_nonzero, hw]

theorem ensure_init_of_ne (w c : Nat) (hw : w ≠ 0) :
    ensure_init w c = some (w, w, c) := by
  simp [ensure_init, hw]

theorem compare_exchange_fail (w v : Nat) (hw : w ≠ 0) :
    compare_exchange w 0 v = ((false, w), w) := by
  simp [compare_exchange, hw]

theorem lazy_init_adopt {w c id c2 : Nat} (hw : w ≠ 0)
    (h : next_id c = some (id, c2)) : lazy_init w c = some (w, w, c2) := by
  simp only [lazy_init, h, compare_exchange_fail w id hw]

theorem lazy_init_install {c id c2 : Nat} (h : next_id c = some (id, c2)) :
    lazy_init 0 c = some (id, id, c2) := by
  rw [lazy_init, h]
  simp [compare_exchange]

theorem get_nonzero_sound {w c v w2 c2 : Nat} (hc : 1 ≤ c)
    (h : get_nonzero w c = some (v, w2, c2)) :
    v = w2 ∧ v ≠ 0 ∧ 1 ≤ c2 := by
  by_cases hw : w = 0
  · subst hw
    rw [show get_nonzero 0 c = lazy_init 0 c from by simp [get_nonzero]] at h
    rcases hni : next_id c with _ | ⟨id, c3⟩
    · rw [lazy_init, hni] at h
      exact absurd h (by simp)
    · obtain ⟨hcle, hid, hc3⟩ := next_id_inv hni
      rw [lazy_init_install hni] at h
      have hp := Option.some_inj.mp h
      have hv : id = v := congrArg Prod.fst hp
      have hw2 : id = w2 := congrArg (fun x => x.2.1) hp
      have hc2 : c3 = c2 := congrArg (fun x => x.2.2) hp
      refine ⟨hv ▸ hw2 ▸ rfl, ?_, by omega⟩
      rw [← hv, hid]
      exact mix_ne_zero c (by have := i64max_lt_mod; omega) (by omega)
  · rw [get_nonzero_of_ne w c hw] at h
    have hp := Option.some_inj.mp h
    have hv : w = v := congrArg Prod.fst hp
    have hw2 : w = w2 := congrArg (fun x => x.2.1) hp
    have hc2 : c = c2 := congrArg (fun x => x.2.2) hp
    exact ⟨hv ▸ hw2.symm ▸ rfl, hv ▸ hw, hc2 ▸ hc⟩

/-- C6: once a slot word holds a nonzero value w it stays w forever: every
subsequent operation (get_nonzero, ensure_init, a compare_exchange from 0,
lazy_init, hashing, debug formatting, equality and ordering) returns a
result determined by w and leaves the word equal to w; and resolve either
installs a fresh value by compare_exchange from 0 or adopts the value that
was already stored. -/
theorem slot_initialized_stable :
    (∀ w c, w ≠ 0 →
      get_nonzero w c = some (w, w, c) ∧
      ensure_init w c = some (w, w, c) ∧
      (∀ v, compare_exchange w 0 v = ((false, w), w)) ∧
      (∀ id c2, next_id c = some (id, c2) → lazy_init w c = some (w, w, c2)) ∧
      (∀ h : Nat → Nat, id_hash h w c = some (h w, w, c)) ∧
      id_debug w c = some ((w, unmix w), w, c) ∧
      (∀ w2, w2 ≠ 0 → id_eq w w2 c = some (w == w2, w, w2, c) ∧
        id_cmp w w2 c = some (compare w w2, w, w2, c))) ∧
    (∀ c id c2, next_id c = some (id, c2) → lazy_init 0 c = some (id, id, c2)) := by
  refine ⟨?_, fun c id c2 h => lazy_init_install h⟩
  intro w c hw
  refine ⟨get_nonzero_of_ne w c hw, ensure_init_of_ne w c hw,
    fun v => compare_exchange_fail w v hw,
    fun id c2 h => lazy_init_adopt hw h, ?_, ?_, ?_⟩
  · intro h
    simp only [id_hash, get_nonzero_of_ne w c hw]
  · simp only [id_debug, get_nonzero_of_ne w c hw]
  · intro w2 hw2
    constructor
    · simp only [id_eq, get_nonzero_of_ne w c hw, get_nonzero_of_ne w2 c hw2]
    · simp only [id_cmp, get_nonzero_of_ne w c hw, get_nonzero_of_ne w2 c hw2]

/-- Witness for C6 on the slot word 7 with counter 1 and neighbor word 9. -/
theorem slot_initialized_stable_witness :
    (7 : Nat) ≠ 0 ∧ get_nonzero 7 1 = some (7, 7, 1) ∧
    lazy_init 7 1 = some (7, 7, 2) ∧
    id_eq 7 9 1 = some (false, 7, 9, 1) ∧
    lazy_init 0 1 = some (mix 1, mix 1, 2) := by
  have h := slot_initialized_stable.1 7 1 (by decide)
  refine ⟨by decide, h.1, h.2.2.2.1 (mix 1) 2 (by decide), ?_,
    slot_initialized_stable.2 1 (mix 1) 2 (by decide)⟩
  have he := (h.2.2.2.2.2.2 9 (by decide)).1
  simpa using he

/-- C7: from_raw_integer stores the caller-supplied nonzero value directly:
the slot word is exactly v, reading it back yields v unchanged (not mixed),
and the sequence allocator counter is not consulted. -/
theorem from_raw_integer_spec :
    ∀ v c, v ≠ 0 →
      from_raw_integer v = v ∧
      get_nonzero (from_raw_integer v) c = some (v, v, c) ∧
      ensure_init (from_raw_integer v) c = some (v, v, c) :=
  fun v c hv =>
    ⟨rfl, get_nonzero_of_ne v c hv, ensure_init_of_ne v c hv⟩

/-- Witness for C7 at the documented example value 400. -/
theorem from_raw_integer_spec_witness :
    (400 : Nat) ≠ 0 ∧ get_nonzero (from_raw_integer 400) 1 = some (400, 400, 1) :=
  ⟨by decide, (from_raw_integer_spec 400 1 (by decide)).2.1⟩

/-- C8: equality, ordering and hashing are defined purely on the resolved
values: id_eq answers with va == vb (true exactly when the resolved values
are equal), id_cmp answers with the u64 comparison of the resolved values,
id_hash hashes the resolved value, and each operation forces any
still-unresolved operand (the final words are the nonzero resolved
values). -/
theorem cmp_by_resolved_value :
    ∀ wa wb c va wa2 c1 vb wb2 c2,
      1 ≤ c →
      get_nonzero wa c = some (va, wa2, c1) →
      get_nonzero wb c1 = some (vb, wb2, c2) →
      id_eq wa wb c = some (va == vb, wa2, wb2, c2) ∧
      ((va == vb) = true ↔ va = vb) ∧
      id_cmp wa wb c = some (compare va vb, wa2, wb2, c2) ∧
      (∀ h : Nat → Nat, id_hash h wa c = some (h va, wa2, c1)) ∧
      va = wa2 ∧ vb = wb2 ∧ wa2 ≠ 0 ∧ wb2 ≠ 0 := by
  intro wa wb c va wa2 c1 vb wb2 c2 hc ha hb
  obtain ⟨hva, hva0, hc1⟩ := get_nonzero_sound hc ha
  obtain ⟨hvb, hvb0, hc2⟩ := get_nonzero_sound hc1 hb
  refine ⟨?_, beq_iff_eq, ?_, ?_, hva, hvb, hva ▸ hva0, hvb ▸ hvb0⟩
  · simp only [id_eq, ha, hb]
  · simp only [id_cmp, ha, hb]
  · intro h
    simp only [id_hash, ha]

/-- Witness for C8: comparing a slot holding 5 with itself. -/
theorem cmp_by_resolved_value_witness :
    id_eq 5 5 1 = some (true, 5, 5, 1) ∧
    id_cmp 5 5 1 = some (Ordering.eq, 5, 5, 1) := by
  have h := cmp_by_resolved_value 5 5 1 5 5 1 5 5 1 (by decide)
    (by decide) (by decide)
  refine ⟨by simpa using h.1, ?_⟩
  have hcmp := h.2.2.1
  rw [show compare 5 5 = Ordering.eq from by decide] at hcmp
  exact hcmp

/-- C9: cloning forces resolution of the source and yields a second slot
whose word equals the resolved value of the source; afterwards reads of
both the original and the clone return that same nonzero value forever. -/
theorem clone_spec :
    ∀ w c wc w2 c2, 1 ≤ c → id_clone w c = some (wc, w2, c2) →
      wc = w2 ∧ wc ≠ 0 ∧ 1 ≤ c2 ∧
      get_nonzero wc c2 = some (wc, wc, c2) ∧
      get_nonzero w2 c2 = some (w2, w2, c2) := by
  intro w c wc w2 c2 hc h
  rcases hgn : get_nonzero w c with _ | ⟨v, w3, c3⟩
  · rw [id_clone, hgn] at h
    exact absurd h (by simp)
  · simp only [id_clone, hgn, Option.some_inj, Prod.mk.injEq] at h
    obtain ⟨rfl, rfl, rfl⟩ := h
    obtain ⟨rfl, hv0, hc2⟩ := get_nonzero_sound hc hgn
    exact ⟨rfl, hv0, hc2, get_nonzero_of_ne _ _ hv0, get_nonzero_of_ne _ _ hv0⟩

/-- Witness for C9: cloning a still-unresolved slot with counter 1. -/
theorem clone_spec_witness :
    (1 : Nat) ≤ 1 ∧ id_clone 0 1 = some (mix 1, mix 1, 2) ∧
    mix 1 ≠ 0 ∧ get_nonzero (mix 1) 2 = some (mix 1, mix 1, 2) := by
  have h := clone_spec 0 1 (mix 1) (mix 1) 2 (by decide) (by decide)
  exact ⟨by decide, by decide, h.2.1, h.2.2.2.1⟩

/-- C10: the three debug assertions always hold: a successful next_seq from
a reachable counter returns a nonzero sequence number, next_id never
produces zero, and the value observed by a failed compare_exchange against
expected 0 is nonzero. -/
theorem debug_asserts_hold :
    (∀ c s c2, 1 ≤ c → next_seq c = some (s, c2) → s ≠ 0) ∧
    (∀ c id c2, 1 ≤ c → next_id c = some (id, c2) → id ≠ 0) ∧
    (∀ w v, (compare_exchange w 0 v).1.1 = false →
      (compare_exchange w 0 v).1.2 ≠ 0) := by
  refine ⟨?_, ?_, ?_⟩
  · intro c s c2 hc h
    by_cases hgt : I64_MAX < c
    · simp [next_seq, hgt] at h
    · rw [next_seq_ok c (by omega)] at h
      have := congrArg Prod.fst (Option.some_inj.mp h)
      simp only at this
      omega
  · intro c id c2 hc h
    obtain ⟨hle, hid, _⟩ := next_id_inv h
    rw [hid]
    exact mix_ne_zero c (by have := i64max_lt_mod; omega) (by omega)
  · intro w v hf
    by_cases hw : w = 0
    · simp [compare_exchange, hw] at hf
    · simp [compare_exchange, hw]

/-- Witness for C10 at counter 1 and an occupied slot word 7. -/
theorem debug_asserts_hold_witness :
    (1 : Nat) ≤ 1 ∧ next_seq 1 = some (1, 2) ∧ (1 : Nat) ≠ 0 ∧
    mix 1 ≠ 0 ∧ (compare_exchange 7 0 3).1.2 ≠ 0 :=
  ⟨by decide, by decide,
   debug_asserts_hold.1 1 1 2 (by decide) (by decide),
   debug_asserts_hold.2.1 1 (mix 1) 2 (by decide) (by decide),
   debug_asserts_hold.2.2 7 3 (by decide)⟩

end LazyId
